import Mathlib

/-!
Verification of the dependency-graph core of `orbital`.

The development shallowly embeds `src/query_graph/graph.rs` (validation and
DAG construction), `src/query_graph/query.rs` (the query registry) and
`src/query_graph/mod.rs` (edge generation) as executable Lean definitions,
and proves the specified properties about them.

Node identities (`NodeId`, a 64-bit unsigned integer in the source) are
modelled as `Nat`: no arithmetic is ever performed on ids, they are only
hashed, compared, sorted and stored, so wrap-around can never occur.
-/

namespace Orbital

/-- The edge relation induced by an edge list: `EdgeRel e x y` holds when the
directed edge `(x, y)` is present in `e`. -/
def EdgeRel (e : List (Nat × Nat)) (x y : Nat) : Prop := (x, y) ∈ e

instance (e : List (Nat × Nat)) (x y : Nat) : Decidable (EdgeRel e x y) :=
  inferInstanceAs (Decidable ((x, y) ∈ e))

/-- All ids appearing as an endpoint (source or destination) of some edge.
Models the `distinct_edge_ids` fold in `ValidGraphData::new_from_id_edge_pairs`;
the Rust fold builds a hash set, here duplicates may remain and the list is
used only through membership. -/
def endpoints (e : List (Nat × Nat)) : List Nat :=
  e.foldr (fun p acc => p.1 :: p.2 :: acc) []

theorem mem_endpoints {e : List (Nat × Nat)} {x : Nat} :
    x ∈ endpoints e ↔ ∃ p ∈ e, p.1 = x ∨ p.2 = x := by
  induction e with
  | nil => simp [endpoints]
  | cons q t ih =>
    simp only [endpoints, List.foldr_cons, List.mem_cons] at *
    constructor
    · rintro (rfl | rfl | hx)
      · exact ⟨q, Or.inl rfl, Or.inl rfl⟩
      · exact ⟨q, Or.inl rfl, Or.inr rfl⟩
      · obtain ⟨p, hp, hpe⟩ := ih.1 hx
        exact ⟨p, Or.inr hp, hpe⟩
    · rintro ⟨p, (rfl | hp), (h1 | h2)⟩
      · exact Or.inl h1.symm
      · exact Or.inr (Or.inl h2.symm)
      · exact Or.inr (Or.inr (ih.2 ⟨p, hp, Or.inl h1⟩))
      · exact Or.inr (Or.inr (ih.2 ⟨p, hp, Or.inr h2⟩))

/-- Insertion of an id into a strictly-sorted list, skipping duplicates.
Together with `sortedDedup` this models the hash-set deduplication followed by
`sort_unstable` in the validator: the result is the deduplicated,
ascending-sorted list of the input's elements. -/
def insertSorted (x : Nat) : List Nat → List Nat
  | [] => [x]
  | y :: ys =>
    if x < y then x :: y :: ys
    else if x = y then y :: ys
    else y :: insertSorted x ys

/-- Deduplicated ascending sort of a list of ids. -/
def sortedDedup (l : List Nat) : List Nat := l.foldr insertSorted []

theorem mem_insertSorted {x z : Nat} {l : List Nat} :
    z ∈ insertSorted x l ↔ z = x ∨ z ∈ l := by
  induction l with
  | nil => simp [insertSorted]
  | cons y ys ih =>
    by_cases h1 : x < y
    · simp [insertSorted, h1]
    · by_cases h2 : x = y
      · subst h2
        simp only [insertSorted, if_neg h1, eq_self_iff_true, if_true]
        simp only [List.mem_cons]
        constructor
        · exact Or.inr
        · rintro (rfl | hz)
          · exact Or.inl rfl
          · exact hz
      · simp only [insertSorted, if_neg h1, if_neg h2, List.mem_cons, ih]
        tauto

theorem sorted_insertSorted {x : Nat} {l : List Nat} (hl : l.Sorted (· < ·)) :
    (insertSorted x l).Sorted (· < ·) := by
  induction l with
  | nil => simp [insertSorted]
  | cons y ys ih =>
    rw [List.sorted_cons] at hl
    by_cases h1 : x < y
    · simp only [insertSorted, if_pos h1]
      rw [List.sorted_cons]
      refine ⟨?_, by rw [List.sorted_cons]; exact hl⟩
      intro b hb
      rcases List.mem_cons.1 hb with rfl | hb
      · exact h1
      · exact h1.trans (hl.1 b hb)
    · by_cases h2 : x = y
      · subst h2
        simp only [insertSorted, if_neg h1, eq_self_iff_true, if_true]
        rw [List.sorted_cons]
        exact hl
      · simp only [insertSorted, if_neg h1, if_neg h2]
        rw [List.sorted_cons]
        refine ⟨?_, ih hl.2⟩
        intro b hb
        rcases mem_insertSorted.1 hb with rfl | hb
        · omega
        · exact hl.1 b hb

theorem mem_sortedDedup {x : Nat} {l : List Nat} :
    x ∈ sortedDedup l ↔ x ∈ l := by
  induction l with
  | nil => simp [sortedDedup]
  | cons y ys ih =>
    simp only [sortedDedup, List.foldr_cons] at *
    rw [mem_insertSorted, ih, List.mem_cons]

theorem sorted_sortedDedup (l : List Nat) : (sortedDedup l).Sorted (· < ·) := by
  induction l with
  | nil => simp [sortedDedup]
  | cons y ys ih => exact sorted_insertSorted ih

/-- Validated graph data: a deduplicated, ascending-sorted node list and the
edge list. Models `struct ValidGraphData { nodes, edges }`. -/
structure ValidGraphData where
  nodes : List Nat
  edges : List (Nat × Nat)
  deriving Repr, DecidableEq

/-- Models `ValidGraphData::new_from_id_edge_pairs`:
fails when some edge endpoint is not a declared node id (`mismatches`);
removes declared ids appearing in no edge (`orphan_nodes`), deduplicates and
sorts the remainder; fails when nothing remains.  The source's extra
`node_id_set.is_empty()` disjunct is subsumed: `valid_nodes` is a subset of
the declared ids, so it is empty whenever the declared set is. -/
def ValidGraphData.new_from_id_edge_pairs (node_ids : List Nat)
    (edges : List (Nat × Nat)) : Option ValidGraphData :=
  if ((endpoints edges).filter (fun x => !(node_ids.contains x))).isEmpty then
    if (sortedDedup (node_ids.filter
        (fun i => (endpoints edges).contains i))).isEmpty then none
    else some { nodes := sortedDedup (node_ids.filter
                  (fun i => (endpoints edges).contains i)),
                edges := edges }
  else none

/-- Models `ValidGraphData::new_from_edges`: the candidate node set is the set
of edge endpoints.  The Rust collects the endpoints into a hash set first; the
duplicates left here are erased by the deduplication inside
`new_from_id_edge_pairs`, which only reads the candidate list through
membership. -/
def ValidGraphData.new_from_edges (edges : List (Nat × Nat)) :
    Option ValidGraphData :=
  ValidGraphData.new_from_id_edge_pairs (endpoints edges) edges

/-- Idempotent edge insertion: models `petgraph`'s `Graph::update_edge`, which
adds the edge only when it is not already present (adding the same edge twice
is a no-op, not a duplicate). -/
def addEdge (es : List (Nat × Nat)) (p : Nat × Nat) : List (Nat × Nat) :=
  if p ∈ es then es else es ++ [p]

/-- The edge set of the built graph: the validated edges inserted one by one
with `update_edge`, as in `impl From<ValidGraphData> for DiAcylcicGraph`. -/
def buildEdges (edges : List (Nat × Nat)) : List (Nat × Nat) :=
  edges.foldl addEdge []

theorem mem_foldl_addEdge {q : Nat × Nat} :
    ∀ {l acc : List (Nat × Nat)}, q ∈ l.foldl addEdge acc ↔ q ∈ acc ∨ q ∈ l := by
  intro l
  induction l with
  | nil => simp
  | cons p t ih =>
    intro acc
    rw [List.foldl_cons, ih]
    unfold addEdge
    by_cases hp : p ∈ acc
    · rw [if_pos hp]
      simp only [List.mem_cons]
      constructor
      · rintro (h | h)
        · exact Or.inl h
        · exact Or.inr (Or.inr h)
      · rintro (h | rfl | h)
        · exact Or.inl h
        · exact Or.inl hp
        · exact Or.inr h
    · rw [if_neg hp]
      simp only [List.mem_append, List.mem_singleton, List.mem_cons]
      tauto

theorem mem_buildEdges {q : Nat × Nat} {edges : List (Nat × Nat)} :
    q ∈ buildEdges edges ↔ q ∈ edges := by
  unfold buildEdges
  rw [mem_foldl_addEdge]
  simp

/-- Successors of a node in the edge list. -/
def succs (e : List (Nat × Nat)) (a : Nat) : List Nat :=
  (e.filter (fun p => p.1 == a)).map Prod.snd

/-- Bounded reachability: `reachB e k a b` holds exactly when some edge path
of length between `1` and `k` leads from `a` to `b` in `e`. -/
def reachB (e : List (Nat × Nat)) : Nat → Nat → Nat → Bool
  | 0, _, _ => false
  | k + 1, a, b => decide ((a, b) ∈ e) || (succs e a).any (fun c => reachB e k c b)

/-- A directed cycle exists: some vertex list of length at least two forms an
edge path whose first and last vertices coincide. -/
def HasCycle (e : List (Nat × Nat)) : Prop :=
  ∃ w : List Nat, 2 ≤ w.length ∧ w.Chain' (EdgeRel e) ∧ w.head? = w.getLast?

/-- Models `petgraph::algo::is_cyclic_directed` (an external library call, not
code under `src/`) by its contract: it decides whether the directed graph
contains a cycle.  Here: some endpoint reaches itself by a nonempty path no
longer than the endpoint count.  `is_cyclic_directed_iff_hasCycle` below proves
this decision procedure correct against `HasCycle`. -/
def is_cyclic_directed (e : List (Nat × Nat)) : Bool :=
  (endpoints e).any (fun a => reachB e (endpoints e).length a a)

theorem mem_succs {e : List (Nat × Nat)} {a c : Nat} :
    c ∈ succs e a ↔ (a, c) ∈ e := by
  constructor
  · intro hc
    simp only [succs, List.mem_map, List.mem_filter, beq_iff_eq] at hc
    obtain ⟨p, ⟨hpe, hp1⟩, hp2⟩ := hc
    have hp : p = (a, c) := by cases p; simp_all
    rwa [hp] at hpe
  · intro hc
    simp only [succs, List.mem_map, List.mem_filter, beq_iff_eq]
    exact ⟨(a, c), ⟨hc, rfl⟩, rfl⟩

theorem reachB_sound {e : List (Nat × Nat)} :
    ∀ {k a b}, reachB e k a b = true →
      ∃ m, m ≠ [] ∧ List.Chain (EdgeRel e) a m ∧ (a :: m).getLast? = some b := by
  intro k
  induction k with
  | zero => intro a b h; simp [reachB] at h
  | succ k ih =>
    intro a b h
    rw [reachB, Bool.or_eq_true] at h
    rcases h with h | h
    · refine ⟨[b], by simp, ?_, by simp⟩
      rw [List.chain_cons]
      exact ⟨of_decide_eq_true h, List.Chain.nil⟩
    · rw [List.any_eq_true] at h
      obtain ⟨c, hc, hr⟩ := h
      obtain ⟨m, hne, hch, hlast⟩ := ih hr
      refine ⟨c :: m, by simp, ?_, ?_⟩
      · rw [List.chain_cons]
        exact ⟨mem_succs.1 hc, hch⟩
      · rw [List.getLast?_cons_cons]
        cases m with
        | nil => exact absurd rfl hne
        | cons d m2 => rw [List.getLast?_cons_cons] at hlast ⊢; exact hlast

theorem chain_reachB {e : List (Nat × Nat)} :
    ∀ {m a b}, List.Chain (EdgeRel e) a m → (a :: m).getLast? = some b →
      m ≠ [] → reachB e m.length a b = true := by
  intro m
  induction m with
  | nil => intro a b _ _ hne; exact absurd rfl hne
  | cons c m2 ih =>
    intro a b hch hlast _
    rw [List.chain_cons] at hch
    cases m2 with
    | nil =>
      have hb : c = b := by
        rw [List.getLast?_cons_cons] at hlast
        simpa using hlast
      subst hb
      simp only [List.length_cons, List.length_nil, reachB, Bool.or_eq_true]
      exact Or.inl (decide_eq_true hch.1)
    | cons d m3 =>
      have h2 : reachB e (d :: m3).length c b = true := by
        refine ih hch.2 ?_ (by simp)
        rw [List.getLast?_cons_cons] at hlast
        exact hlast
      simp only [List.length_cons, reachB, Bool.or_eq_true]
      refine Or.inr ?_
      rw [List.any_eq_true]
      exact ⟨c, mem_succs.2 hch.1, h2⟩

theorem reachB_succ {e : List (Nat × Nat)} {b : Nat} :
    ∀ {k a}, reachB e k a b = true → reachB e (k + 1) a b = true := by
  intro k
  induction k with
  | zero => intro a h; simp [reachB] at h
  | succ k ih =>
    intro a h
    rw [reachB, Bool.or_eq_true] at h ⊢
    rcases h with h | h
    · exact Or.inl h
    · rw [List.any_eq_true] at h ⊢
      obtain ⟨c, hc, hr⟩ := h
      exact Or.inr ⟨c, hc, ih hr⟩

theorem reachB_le {e : List (Nat × Nat)} {b k k2 : Nat} (h : k ≤ k2) :
    ∀ {a}, reachB e k a b = true → reachB e k2 a b = true := by
  induction h with
  | refl => intro a h; exact h
  | step _ ih => intro a hr; exact reachB_succ (ih hr)

theorem chain_mem_endpoints {e : List (Nat × Nat)} :
    ∀ {m a}, List.Chain (EdgeRel e) a m →
      ∀ x ∈ (a :: m).dropLast, x ∈ endpoints e := by
  intro m
  induction m with
  | nil => intro a _ x hx; simp at hx
  | cons c m2 ih =>
    intro a hch x hx
    rw [List.chain_cons] at hch
    have hd : (a :: c :: m2).dropLast = a :: (c :: m2).dropLast := rfl
    rw [hd, List.mem_cons] at hx
    rcases hx with rfl | hx
    · exact mem_endpoints.2 ⟨(x, c), hch.1, Or.inl rfl⟩
    · exact ih hch.2 x hx

theorem exists_split_of_not_nodup {l : List Nat} (h : ¬ l.Nodup) :
    ∃ v l₁ l₂ l₃, l = l₁ ++ v :: l₂ ++ v :: l₃ := by
  obtain ⟨x, hx⟩ := List.exists_duplicate_iff_not_nodup.2 h
  have hsub := List.duplicate_iff_sublist.1 hx
  rw [List.cons_sublist_iff] at hsub
  obtain ⟨r₁, r₂, rfl, hmem, hsub2⟩ := hsub
  obtain ⟨s, t, rfl⟩ := List.append_of_mem hmem
  have hx2 : x ∈ r₂ := hsub2.subset (List.mem_singleton_self x)
  obtain ⟨u, v, rfl⟩ := List.append_of_mem hx2
  exact ⟨x, s, t ++ u, v, by simp⟩

theorem closed_walk_cyclic {e : List (Nat × Nat)} :
    ∀ n {a m}, m.length ≤ n → List.Chain (EdgeRel e) a m → m ≠ [] →
      (a :: m).getLast? = some a → is_cyclic_directed e = true := by
  intro n
  induction n with
  | zero =>
    intro a m hlen _ hne _
    cases m with
    | nil => exact absurd rfl hne
    | cons c m2 => simp at hlen
  | succ n ih =>
    intro a m hlen hch hne hlast
    by_cases hnd : (a :: m).dropLast.Nodup
    · have hmem : ∀ x ∈ (a :: m).dropLast, x ∈ endpoints e :=
        chain_mem_endpoints hch
      have hlenle : (a :: m).dropLast.length ≤ (endpoints e).length :=
        (List.subperm_of_subset hnd hmem).length_le
      have hdl : (a :: m).dropLast.length = m.length := by
        rw [List.length_dropLast, List.length_cons]
        omega
      have hr : reachB e m.length a a = true := chain_reachB hch hlast hne
      have hr2 : reachB e (endpoints e).length a a = true :=
        reachB_le (by omega) hr
      have ha : a ∈ endpoints e := by
        apply hmem
        cases m with
        | nil => exact absurd rfl hne
        | cons c m2 => exact List.mem_cons_self a _
      unfold is_cyclic_directed
      rw [List.any_eq_true]
      exact ⟨a, ha, hr2⟩
    · obtain ⟨v, l₁, l₂, l₃, hsplit⟩ := exists_split_of_not_nodup hnd
      have hfull : a :: m = (a :: m).dropLast ++ [a] :=
        (List.dropLast_append_getLast? a (Option.mem_def.mpr hlast)).symm
      rw [hsplit] at hfull
      have hre : l₁ ++ v :: l₂ ++ v :: l₃ ++ [a]
          = l₁ ++ ((v :: (l₂ ++ [v])) ++ (l₃ ++ [a])) := by simp
      rw [hre] at hfull
      have hch2 : List.Chain' (EdgeRel e) (a :: m) := hch
      rw [hfull] at hch2
      have hmid : List.Chain' (EdgeRel e) (v :: (l₂ ++ [v])) :=
        hch2.right_of_append.left_of_append
      have hchv : List.Chain (EdgeRel e) v (l₂ ++ [v]) := hmid
      have hlastv : (v :: (l₂ ++ [v])).getLast? = some v := by
        have : v :: (l₂ ++ [v]) = (v :: l₂) ++ [v] := by simp
        rw [this, List.getLast?_concat]
      have hlen2 : (l₂ ++ [v]).length ≤ n := by
        have h1 := congrArg List.length hfull
        simp only [List.length_cons, List.length_append, List.length_singleton] at h1 ⊢
        omega
      exact ih hlen2 hchv (by simp) hlastv

/-- The cycle-detection pass is correct: it fires exactly when the edge list
contains a directed cycle. -/
theorem is_cyclic_directed_iff_hasCycle (e : List (Nat × Nat)) :
    is_cyclic_directed e = true ↔ HasCycle e := by
  constructor
  · intro h
    unfold is_cyclic_directed at h
    rw [List.any_eq_true] at h
    obtain ⟨a, _, hr⟩ := h
    obtain ⟨m, hne, hch, hlast⟩ := reachB_sound hr
    refine ⟨a :: m, ?_, hch, ?_⟩
    · cases m with
      | nil => exact absurd rfl hne
      | cons c m2 => simp
    · rw [List.head?_cons, hlast]
  · rintro ⟨w, hlen, hch, hcl⟩
    cases w with
    | nil => simp at hlen
    | cons a m =>
      cases m with
      | nil => simp at hlen
      | cons c m2 =>
        have hlast : (a :: c :: m2).getLast? = some a := by
          rw [← hcl, List.head?_cons]
        exact closed_walk_cyclic (c :: m2).length (le_refl _) hch (by simp) hlast

theorem hasCycle_congr {e₁ e₂ : List (Nat × Nat)}
    (h : ∀ p : Nat × Nat, p ∈ e₁ ↔ p ∈ e₂) : HasCycle e₁ ↔ HasCycle e₂ := by
  have he : ∀ a b : Nat, EdgeRel e₁ a b → EdgeRel e₂ a b :=
    fun a b hab => (h (a, b)).1 hab
  have he2 : ∀ a b : Nat, EdgeRel e₂ a b → EdgeRel e₁ a b :=
    fun a b hab => (h (a, b)).2 hab
  constructor <;> rintro ⟨w, h1, h2, h3⟩
  · exact ⟨w, h1, h2.imp he, h3⟩
  · exact ⟨w, h1, h2.imp he2, h3⟩

/-- The query graph: node weights in insertion order (index `i` carries the
`i`-th validated id) together with the built edge set.  The `lookup_table`
of the source maps each id to its insertion index, which is recoverable from
`nodes` alone, so it is not stored separately. -/
structure QueryGraph where
  nodes : List Nat
  edges : List (Nat × Nat)
  deriving Repr, DecidableEq

/-- Models `QueryGraph::new_from_valid_data`: build the graph from the
validated data, then reject it entirely when cycle detection fires. -/
def QueryGraph.new_from_valid_data (v : ValidGraphData) : Option QueryGraph :=
  if is_cyclic_directed (buildEdges v.edges) then none
  else some { nodes := v.nodes, edges := buildEdges v.edges }

/-- Models `QueryGraph::new_from_edges`. -/
def QueryGraph.new_from_edges (edges : List (Nat × Nat)) : Option QueryGraph :=
  (ValidGraphData.new_from_edges edges).bind QueryGraph.new_from_valid_data

/-- Models `QueryGraph::new_from_ids_and_edges`. -/
def QueryGraph.new_from_ids_and_edges (node_ids : List Nat)
    (edges : List (Nat × Nat)) : Option QueryGraph :=
  (ValidGraphData.new_from_id_edge_pairs node_ids edges).bind
    QueryGraph.new_from_valid_data

/-- Position of an id in the node list: the value the `lookup_table` hash map
(filled with the index returned by each `add_node` call) associates to it. -/
def idIndex (l : List Nat) (a : Nat) : Option Nat :=
  match l with
  | [] => none
  | x :: xs => if x = a then some 0 else (idIndex xs a).map (· + 1)

/-- Models `QueryGraph::get_index`: the internal index of an id, i.e. its
insertion position. -/
def QueryGraph.get_index (g : QueryGraph) (node_id : Nat) : Option Nat :=
  idIndex g.nodes node_id

/-- Models `QueryGraph::get_id`: the id stored at an internal index.  The
source scans the lookup table for the unique key mapped to the index; since
the table maps the id at insertion position `i` to index `i`, that is the
`i`-th entry of `nodes`. -/
def QueryGraph.get_id (g : QueryGraph) (node_index : Nat) : Option Nat :=
  g.nodes[node_index]?

/-- Models `QueryGraph::get_root_nodes`: the ids of the nodes with no incoming
edge, in index (= insertion) order. -/
def QueryGraph.get_root_nodes (g : QueryGraph) : List Nat :=
  g.nodes.filter (fun n => !(g.edges.any (fun p => p.2 == n)))

theorem new_from_id_edge_pairs_eq_some {node_ids : List Nat}
    {edges : List (Nat × Nat)} {v : ValidGraphData}
    (h : ValidGraphData.new_from_id_edge_pairs node_ids edges = some v) :
    v.nodes = sortedDedup (node_ids.filter
      (fun i => (endpoints edges).contains i))
    ∧ v.edges = edges
    ∧ (∀ x ∈ endpoints edges, x ∈ node_ids)
    ∧ v.nodes ≠ [] := by
  unfold ValidGraphData.new_from_id_edge_pairs at h
  by_cases h1 : ((endpoints edges).filter
      (fun x => !(node_ids.contains x))).isEmpty = true
  swap
  · rw [if_neg h1] at h
    exact absurd h (by simp)
  rw [if_pos h1] at h
  by_cases h2 : (sortedDedup (node_ids.filter
      (fun i => (endpoints edges).contains i))).isEmpty = true
  · rw [if_pos h2] at h
    exact absurd h (by simp)
  rw [if_neg h2] at h
  have hv : v = { nodes := sortedDedup (node_ids.filter
      (fun i => (endpoints edges).contains i)), edges := edges } :=
    (Option.some.inj h).symm
  subst hv
  refine ⟨rfl, rfl, ?_, ?_⟩
  · intro x hx
    rw [List.isEmpty_iff, List.filter_eq_nil_iff] at h1
    have := h1 x hx
    simpa using this
  · intro hnil
    rw [List.isEmpty_iff] at h2
    exact h2 hnil

theorem new_from_valid_data_eq_some {v : ValidGraphData} {g : QueryGraph}
    (h : QueryGraph.new_from_valid_data v = some g) :
    g.nodes = v.nodes ∧ g.edges = buildEdges v.edges
    ∧ is_cyclic_directed (buildEdges v.edges) = false := by
  unfold QueryGraph.new_from_valid_data at h
  by_cases hc : is_cyclic_directed (buildEdges v.edges) = true
  · rw [if_pos hc] at h
    exact absurd h (by simp)
  · rw [if_neg hc] at h
    have hg : g = { nodes := v.nodes, edges := buildEdges v.edges } :=
      (Option.some.inj h).symm
    subst hg
    exact ⟨rfl, rfl, Bool.eq_false_iff.2 hc⟩

theorem new_from_ids_and_edges_eq_some {node_ids : List Nat}
    {edges : List (Nat × Nat)} {g : QueryGraph}
    (h : QueryGraph.new_from_ids_and_edges node_ids edges = some g) :
    ∃ v, ValidGraphData.new_from_id_edge_pairs node_ids edges = some v
      ∧ QueryGraph.new_from_valid_data v = some g := by
  unfold QueryGraph.new_from_ids_and_edges at h
  exact Option.bind_eq_some.1 h

/-- C1: `QueryGraph::new_from_valid_data` returns a graph exactly when the
validated edge relation contains no directed cycle — every `QueryGraph` that
exists is acyclic.  In particular, over declared nodes `{0,1,2,3,4,5,7}`,
construction from edges `[(0,1),(0,2),(3,2),(2,4),(4,5),(7,5),(5,0)]` returns
no result, while construction without `(5,0)` succeeds. -/
theorem C1_graph_acyclic_by_construction :
    (∀ v : ValidGraphData,
        (QueryGraph.new_from_valid_data v).isSome = true ↔ ¬ HasCycle v.edges)
    ∧ QueryGraph.new_from_ids_and_edges [0, 1, 2, 3, 4, 5, 7]
        [(0, 1), (0, 2), (3, 2), (2, 4), (4, 5), (7, 5), (5, 0)] = none
    ∧ (QueryGraph.new_from_ids_and_edges [0, 1, 2, 3, 4, 5, 7]
        [(0, 1), (0, 2), (3, 2), (2, 4), (4, 5), (7, 5)]).isSome = true := by
  refine ⟨?_, by decide, by decide⟩
  intro v
  have hc : is_cyclic_directed (buildEdges v.edges) = true ↔ HasCycle v.edges :=
    (is_cyclic_directed_iff_hasCycle _).trans
      (hasCycle_congr fun p => mem_buildEdges)
  unfold QueryGraph.new_from_valid_data
  by_cases h : is_cyclic_directed (buildEdges v.edges) = true
  · rw [if_pos h]
    simp only [Option.isSome_none, Bool.false_eq_true, false_iff, not_not]
    exact hc.1 h
  · rw [if_neg h]
    simp only [Option.isSome_some, true_iff]
    exact fun hcy => h (hc.2 hcy)

/-- C2: validation returns no result exactly when some edge endpoint is not a
declared node id, or no declared node id appears in any edge (so the node set
left after orphan removal is empty); in particular it always fails on an empty
edge list. -/
theorem C2_validation_failure_characterisation :
    (∀ (node_ids : List Nat) (edges : List (Nat × Nat)),
        ValidGraphData.new_from_id_edge_pairs node_ids edges = none ↔
          (∃ x ∈ endpoints edges, x ∉ node_ids)
          ∨ (∀ x ∈ node_ids, x ∉ endpoints edges))
    ∧ (∀ node_ids : List Nat,
        ValidGraphData.new_from_id_edge_pairs node_ids [] = none) := by
  have main : ∀ (node_ids : List Nat) (edges : List (Nat × Nat)),
      ValidGraphData.new_from_id_edge_pairs node_ids edges = none ↔
        (∃ x ∈ endpoints edges, x ∉ node_ids)
        ∨ (∀ x ∈ node_ids, x ∉ endpoints edges) := by
    intro node_ids edges
    unfold ValidGraphData.new_from_id_edge_pairs
    by_cases h1 : ((endpoints edges).filter
        (fun x => !(node_ids.contains x))).isEmpty = true
    · rw [if_pos h1]
      rw [List.isEmpty_iff, List.filter_eq_nil_iff] at h1
      have hall : ∀ x ∈ endpoints edges, x ∈ node_ids := by
        intro x hx
        have := h1 x hx
        simpa using this
      by_cases h2 : (sortedDedup (node_ids.filter
          (fun i => (endpoints edges).contains i))).isEmpty = true
      · rw [if_pos h2]
        simp only [true_iff]
        refine Or.inr ?_
        rw [List.isEmpty_iff] at h2
        intro x hxn hxe
        have hmem : x ∈ sortedDedup (node_ids.filter
            (fun i => (endpoints edges).contains i)) := by
          rw [mem_sortedDedup, List.mem_filter]
          exact ⟨hxn, by simpa using hxe⟩
        rw [h2] at hmem
        simp at hmem
      · rw [if_neg h2]
        simp only [reduceCtorEq, false_iff]
        push_neg
        rw [List.isEmpty_iff] at h2
        constructor
        · intro x hx
          simpa using hall x hx
        · rcases List.exists_mem_of_ne_nil _ h2 with ⟨x, hx⟩
          rw [mem_sortedDedup, List.mem_filter] at hx
          exact ⟨x, hx.1, by simpa using hx.2⟩
    · rw [if_neg h1]
      simp only [true_iff]
      refine Or.inl ?_
      have : ¬ ((endpoints edges).filter
          (fun x => !(node_ids.contains x))) = [] := fun hh =>
        h1 (List.isEmpty_iff.2 hh)
      rcases List.exists_mem_of_ne_nil _ this with ⟨x, hx⟩
      rw [List.mem_filter] at hx
      exact ⟨x, hx.1, by simpa using hx.2⟩
  refine ⟨main, ?_⟩
  intro node_ids
  rw [main]
  exact Or.inr (fun x _ hx => by simp [endpoints] at hx)

/-- C3: on success, the validated node list is the deduplicated
ascending-sorted list of the declared ids that appear in at least one edge,
and the edge list is returned unchanged; when the candidate node set is
derived from the edges alone (`new_from_edges`), the node list is the
ascending-sorted set of all edge endpoints. -/
theorem C3_validated_data_shape :
    (∀ (node_ids : List Nat) (edges : List (Nat × Nat)) (v : ValidGraphData),
        ValidGraphData.new_from_id_edge_pairs node_ids edges = some v →
          v.nodes.Sorted (· < ·)
          ∧ (∀ x, x ∈ v.nodes ↔ x ∈ node_ids ∧ x ∈ endpoints edges)
          ∧ v.edges = edges)
    ∧ (∀ (edges : List (Nat × Nat)) (v : ValidGraphData),
        ValidGraphData.new_from_edges edges = some v →
          v.nodes.Sorted (· < ·)
          ∧ (∀ x, x ∈ v.nodes ↔ x ∈ endpoints edges)
          ∧ v.edges = edges) := by
  have main : ∀ (node_ids : List Nat) (edges : List (Nat × Nat))
      (v : ValidGraphData),
      ValidGraphData.new_from_id_edge_pairs node_ids edges = some v →
        v.nodes.Sorted (· < ·)
        ∧ (∀ x, x ∈ v.nodes ↔ x ∈ node_ids ∧ x ∈ endpoints edges)
        ∧ v.edges = edges := by
    intro node_ids edges v h
    obtain ⟨hn, he, _, _⟩ := new_from_id_edge_pairs_eq_some h
    refine ⟨?_, ?_, he⟩
    · rw [hn]
      exact sorted_sortedDedup _
    · intro x
      rw [hn, mem_sortedDedup, List.mem_filter]
      constructor
      · rintro ⟨h1, h2⟩
        exact ⟨h1, by simpa using h2⟩
      · rintro ⟨h1, h2⟩
        exact ⟨h1, by simpa using h2⟩
  refine ⟨main, ?_⟩
  intro edges v h
  obtain ⟨hs, hm, he⟩ := main (endpoints edges) edges v h
  refine ⟨hs, ?_, he⟩
  intro x
  rw [hm x]
  exact ⟨fun hh => hh.2, fun hh => ⟨hh, hh⟩⟩

theorem root_pred_iff {es : List (Nat × Nat)} {x : Nat} :
    (!(es.any (fun p => p.2 == x))) = true ↔ ∀ p ∈ es, p.2 ≠ x := by
  rw [Bool.not_eq_true', List.any_eq_false]
  constructor
  · intro h p hp
    simpa using h p hp
  · intro h p hp
    simpa using h p hp

/-- C4: for every constructed graph, `get_root_nodes` returns exactly the ids
with zero incoming edges, in ascending id order; for nodes
`{31,18,9,243,11,86,109}` and edges
`[(31,18),(31,9),(243,9),(9,11),(11,86),(109,86)]` it returns `[31,109,243]`. -/
theorem C4_root_nodes_characterisation :
    (∀ (node_ids : List Nat) (edges : List (Nat × Nat)) (g : QueryGraph),
        QueryGraph.new_from_ids_and_edges node_ids edges = some g →
          g.get_root_nodes.Sorted (· < ·)
          ∧ (∀ x, x ∈ g.get_root_nodes ↔
              x ∈ g.nodes ∧ ∀ p ∈ g.edges, p.2 ≠ x))
    ∧ (QueryGraph.new_from_ids_and_edges [31, 18, 9, 243, 11, 86, 109]
        [(31, 18), (31, 9), (243, 9), (9, 11), (11, 86), (109, 86)]).map
          QueryGraph.get_root_nodes = some [31, 109, 243] := by
  refine ⟨?_, by decide⟩
  intro node_ids edges g h
  obtain ⟨v, hv, hg⟩ := new_from_ids_and_edges_eq_some h
  obtain ⟨hgn, _, _⟩ := new_from_valid_data_eq_some hg
  obtain ⟨hvn, _, _, _⟩ := new_from_id_edge_pairs_eq_some hv
  constructor
  · apply List.Pairwise.filter
    rw [hgn, hvn]
    exact sorted_sortedDedup _
  · intro x
    unfold QueryGraph.get_root_nodes
    rw [List.mem_filter, root_pred_iff]

theorem idIndex_spec {l : List Nat} {a : Nat} (h : a ∈ l) :
    ∃ i, idIndex l a = some i ∧ l[i]? = some a := by
  induction l with
  | nil => simp at h
  | cons x xs ih =>
    by_cases hx : x = a
    · subst hx
      exact ⟨0, by rw [idIndex, if_pos rfl], by simp⟩
    · rcases List.mem_cons.1 h with heq | h2
      · exact absurd heq.symm hx
      · obtain ⟨i, h1, h2i⟩ := ih h2
        refine ⟨i + 1, ?_, by simpa using h2i⟩
        rw [idIndex, if_neg hx, h1]
        rfl

/-- C8: for every id present in a constructed graph, `get_index` returns an
internal index and `get_id` maps that index back to the same id. -/
theorem C8_id_index_roundtrip :
    ∀ (node_ids : List Nat) (edges : List (Nat × Nat)) (g : QueryGraph)
      (node_id : Nat),
      QueryGraph.new_from_ids_and_edges node_ids edges = some g →
      node_id ∈ g.nodes →
      ∃ ix, g.get_index node_id = some ix ∧ g.get_id ix = some node_id := by
  intro node_ids edges g node_id _ hmem
  exact idIndex_spec hmem

theorem chain_dup_cyclic {e : List (Nat × Nat)} {a : Nat} {m : List Nat}
    (hch : List.Chain (EdgeRel e) a m) (hnd : ¬ (a :: m).Nodup) :
    is_cyclic_directed e = true := by
  obtain ⟨v, l₁, l₂, l₃, hsplit⟩ := exists_split_of_not_nodup hnd
  have hch2 : List.Chain' (EdgeRel e) (a :: m) := hch
  rw [hsplit] at hch2
  have hre : l₁ ++ v :: l₂ ++ v :: l₃ = l₁ ++ ((v :: (l₂ ++ [v])) ++ l₃) := by
    simp
  rw [hre] at hch2
  have hchv : List.Chain (EdgeRel e) v (l₂ ++ [v]) :=
    hch2.right_of_append.left_of_append
  have hlastv : (v :: (l₂ ++ [v])).getLast? = some v := by
    have hconc : v :: (l₂ ++ [v]) = (v :: l₂) ++ [v] := by simp
    rw [hconc, List.getLast?_concat]
  exact closed_walk_cyclic (l₂ ++ [v]).length le_rfl hchv (by simp) hlastv

theorem preds_everywhere_cyclic {e : List (Nat × Nat)} {nodes : List Nat}
    (hne : nodes ≠ [])
    (hpred : ∀ n ∈ nodes, ∃ b, (b, n) ∈ e ∧ b ∈ nodes) :
    is_cyclic_directed e = true := by
  obtain ⟨n₀, hn₀⟩ := List.exists_mem_of_ne_nil nodes hne
  have hwalk : ∀ k, ∃ a m, a ∈ nodes ∧ m.length = k
      ∧ List.Chain (EdgeRel e) a m := by
    intro k
    induction k with
    | zero => exact ⟨n₀, [], hn₀, rfl, List.Chain.nil⟩
    | succ k ih =>
      obtain ⟨a, m, ha, hlen, hch⟩ := ih
      obtain ⟨b, hb, hbn⟩ := hpred a ha
      exact ⟨b, a :: m, hbn, by simp [hlen], List.chain_cons.2 ⟨hb, hch⟩⟩
  obtain ⟨a, m, _, hlen, hch⟩ := hwalk ((endpoints e).length + 1)
  apply chain_dup_cyclic hch
  intro hnd
  have hnd2 : (a :: m).dropLast.Nodup :=
    List.Nodup.sublist (List.dropLast_sublist (a :: m)) hnd
  have hb := (List.subperm_of_subset hnd2 (chain_mem_endpoints hch)).length_le
  rw [List.length_dropLast, List.length_cons, hlen] at hb
  omega

/-- C10: every graph produced through validation has at least one root node:
the validated node set is non-empty and the graph acyclic, so some node has no
incoming edge. -/
theorem C10_root_nodes_nonempty :
    (∀ (node_ids : List Nat) (edges : List (Nat × Nat)) (g : QueryGraph),
        QueryGraph.new_from_ids_and_edges node_ids edges = some g →
          g.get_root_nodes ≠ [])
    ∧ (∀ (edges : List (Nat × Nat)) (g : QueryGraph),
        QueryGraph.new_from_edges edges = some g → g.get_root_nodes ≠ []) := by
  have main : ∀ (node_ids : List Nat) (edges : List (Nat × Nat))
      (g : QueryGraph),
      QueryGraph.new_from_ids_and_edges node_ids edges = some g →
        g.get_root_nodes ≠ [] := by
    intro node_ids edges g h hroot
    obtain ⟨v, hv, hg⟩ := new_from_ids_and_edges_eq_some h
    obtain ⟨hgn, hge, hcyc⟩ := new_from_valid_data_eq_some hg
    obtain ⟨hvn, hve, hend, hnnil⟩ := new_from_id_edge_pairs_eq_some hv
    have hall : ∀ n ∈ g.nodes, ∃ p ∈ g.edges, p.2 = n := by
      intro n hn
      unfold QueryGraph.get_root_nodes at hroot
      rw [List.filter_eq_nil_iff] at hroot
      have hfal := hroot n hn
      have hany : (g.edges.any fun p => p.2 == n) = true := by
        simpa using hfal
      rw [List.any_eq_true] at hany
      obtain ⟨p, hp, hpx⟩ := hany
      exact ⟨p, hp, by simpa using hpx⟩
    have hpred : ∀ n ∈ v.nodes, ∃ b, (b, n) ∈ buildEdges v.edges
        ∧ b ∈ v.nodes := by
      intro n hn
      obtain ⟨p, hp, hp2⟩ := hall n (by rw [hgn]; exact hn)
      rw [hge] at hp
      have hpv : p ∈ v.edges := mem_buildEdges.1 hp
      rw [hve] at hpv
      have hsrc : p.1 ∈ endpoints edges := mem_endpoints.2 ⟨p, hpv, Or.inl rfl⟩
      have hsrcn : p.1 ∈ v.nodes := by
        rw [hvn, mem_sortedDedup, List.mem_filter]
        exact ⟨hend p.1 hsrc, by simpa using hsrc⟩
      refine ⟨p.1, ?_, hsrcn⟩
      rw [mem_buildEdges, hve]
      have hpair : (p.1, n) = p := by
        rw [← hp2]
      rw [hpair]
      exact hpv
    have := preds_everywhere_cyclic hnnil hpred
    rw [hcyc] at this
    exact Bool.false_ne_true this
  refine ⟨main, ?_⟩
  intro edges g h
  unfold QueryGraph.new_from_edges at h
  unfold ValidGraphData.new_from_edges at h
  exact main (endpoints edges) edges g h

/-- Witness for C3 at concrete input: declared ids `[9, 11, 57]` (57 is an
orphan) and edge list `[(9, 11)]`. -/
theorem C3_validated_data_shape_witness :
    (ValidGraphData.mk [9, 11] [(9, 11)]).nodes.Sorted (· < ·)
    ∧ (∀ x, x ∈ (ValidGraphData.mk [9, 11] [(9, 11)]).nodes ↔
        x ∈ [9, 11, 57] ∧ x ∈ endpoints [(9, 11)])
    ∧ (ValidGraphData.mk [9, 11] [(9, 11)]).edges = [(9, 11)] :=
  C3_validated_data_shape.1 [9, 11, 57] [(9, 11)]
    (ValidGraphData.mk [9, 11] [(9, 11)]) (by decide)

/-- Witness for C4 at the spec's concrete example. -/
theorem C4_root_nodes_characterisation_witness :
    (QueryGraph.mk [9, 11, 18, 31, 86, 109, 243]
        [(31, 18), (31, 9), (243, 9), (9, 11), (11, 86),
          (109, 86)]).get_root_nodes.Sorted (· < ·)
    ∧ (∀ x, x ∈ (QueryGraph.mk [9, 11, 18, 31, 86, 109, 243]
          [(31, 18), (31, 9), (243, 9), (9, 11), (11, 86),
            (109, 86)]).get_root_nodes ↔
        x ∈ (QueryGraph.mk [9, 11, 18, 31, 86, 109, 243]
          [(31, 18), (31, 9), (243, 9), (9, 11), (11, 86), (109, 86)]).nodes
        ∧ ∀ p ∈ (QueryGraph.mk [9, 11, 18, 31, 86, 109, 243]
            [(31, 18), (31, 9), (243, 9), (9, 11), (11, 86),
              (109, 86)]).edges, p.2 ≠ x) :=
  C4_root_nodes_characterisation.1 [31, 18, 9, 243, 11, 86, 109]
    [(31, 18), (31, 9), (243, 9), (9, 11), (11, 86), (109, 86)]
    (QueryGraph.mk [9, 11, 18, 31, 86, 109, 243]
      [(31, 18), (31, 9), (243, 9), (9, 11), (11, 86), (109, 86)])
    (by decide)

/-- Witness for C8 at concrete input: id 11 in the graph over `[9, 11]`. -/
theorem C8_id_index_roundtrip_witness :
    ∃ ix, (QueryGraph.mk [9, 11] [(9, 11)]).get_index 11 = some ix
      ∧ (QueryGraph.mk [9, 11] [(9, 11)]).get_id ix = some 11 :=
  C8_id_index_roundtrip [9, 11] [(9, 11)]
    (QueryGraph.mk [9, 11] [(9, 11)]) 11 (by decide) (by decide)

/-- Witness for C10 at concrete input. -/
theorem C10_root_nodes_nonempty_witness :
    (QueryGraph.mk [9, 11] [(9, 11)]).get_root_nodes ≠ [] :=
  C10_root_nodes_nonempty.1 [9, 11] [(9, 11)]
    (QueryGraph.mk [9, 11] [(9, 11)]) (by decide)

/-! ## Query registry (`src/query_graph/query.rs`)

The registry is embedded relative to two external boundaries, passed as
explicit function arguments:
* `frontEnd : String → Option (List String)` models the `prql_compiler`
  pipeline `resolve(parse(text))` followed by `extract_dependent_tables`:
  `none` is a parse/resolve error, `some deps` the referenced table names.
* `hash : String → Nat` models `xxh3_64` over the name bytes.
Hash maps keyed by strings are embedded as association lists whose insert
replaces any previous binding; every proved property is insensitive to
iteration order. -/

/-- Models `struct RawQuery { query_string, name }`. -/
structure RawQuery where
  query_string : String
  name : String
  deriving Repr, DecidableEq

/-- Models `struct Query`; the resolved query representation is opaque to the
graph core and not carried. -/
structure Query where
  id : Nat
  name : String
  dependencies : List String
  deriving Repr, DecidableEq

/-- Models `struct TableQuery`. -/
structure TableQuery where
  id : Nat
  name : String
  deriving Repr, DecidableEq

/-- Models `enum QueryKind`. -/
inductive QueryKind where
  | query : Query → QueryKind
  | tableQuery : TableQuery → QueryKind
  deriving Repr, DecidableEq

/-- Modelled from the spec: the accessor methods `id()` and `name()` invoked
on registry values by `generate_graph_from_collection` are not present under
`src/`; per the spec each variant carries its id and its name. -/
def QueryKind.id : QueryKind → Nat
  | QueryKind.query q => q.id
  | QueryKind.tableQuery t => t.id

/-- Modelled from the spec: companion accessor to `QueryKind.id`. -/
def QueryKind.name : QueryKind → String
  | QueryKind.query q => q.name
  | QueryKind.tableQuery t => t.name

/-- Hash-map insertion on the association-list model: bind `k` to `v`,
dropping any previous binding of `k`. -/
def mapInsert {V : Type} (m : List (String × V)) (k : String) (v : V) :
    List (String × V) :=
  (k, v) :: m.filter (fun p => !(p.1 == k))

/-- Hash-map lookup on the association-list model. -/
def mapFind {V : Type} (m : List (String × V)) (k : String) : Option V :=
  (m.find? (fun p => p.1 == k)).map Prod.snd

/-- The key `k` is bound in the map. -/
def keyIn {V : Type} (m : List (String × V)) (k : String) : Prop :=
  ∃ v, (k, v) ∈ m

/-- Models `struct ResourceIdMap { inner, reverse }`. -/
structure ResourceIdMap where
  inner : List (String × Nat)
  reverse : List (Nat × String)
  deriving Repr, DecidableEq

/-- Models `ResourceIdMap::new`. -/
def ResourceIdMap.new : ResourceIdMap := { inner := [], reverse := [] }

/-- Models `ResourceIdMap::insert_resource`: insert the forward and the
reverse binding. -/
def ResourceIdMap.insert_resource (m : ResourceIdMap) (resource_name : String)
    (resource_id : Nat) : ResourceIdMap :=
  { inner := mapInsert m.inner resource_name resource_id,
    reverse := (resource_id, resource_name) ::
      m.reverse.filter (fun p => !(p.1 == resource_id)) }

/-- Models `struct QueryCollection { query_map, query_id_map }`. -/
structure QueryCollection where
  query_map : List (String × QueryKind)
  query_id_map : ResourceIdMap
  deriving Repr, DecidableEq

/-- Models `QueryCollection::new`. -/
def QueryCollection.new : QueryCollection :=
  { query_map := [], query_id_map := ResourceIdMap.new }

/-- Models `QueryCollection::prepare_query`: run the front end, then assign
the id by hashing the name and record the extracted dependency names. -/
def prepare_query (frontEnd : String → Option (List String))
    (hash : String → Nat) (raw_query : String) (query_name : String) :
    Option Query :=
  (frontEnd raw_query).map
    (fun deps =>
      { id := hash query_name, name := query_name, dependencies := deps })

/-- One registration step of the first loop of `add_queries`: store the query
under its name and record the name/id pair in the registry. -/
def insertParsed (acc : QueryCollection) (q : Query) : QueryCollection :=
  { query_map := mapInsert acc.query_map q.name (QueryKind.query q),
    query_id_map := acc.query_id_map.insert_resource q.name q.id }

/-- The first loop of `add_queries`: store every successfully parsed query. -/
def store_parsed (c : QueryCollection) (parsed : List Query) :
    QueryCollection :=
  parsed.foldl insertParsed c

/-- Dependency names one stored entry contributes to the `table_names` scan
of `add_queries`: for a `Query`, its dependency names that are not yet keys of
the query map; a `TableQuery` contributes none. -/
def unregistered_deps (c : QueryCollection) : QueryKind → List String
  | QueryKind.query q =>
      q.dependencies.filter (fun d => !(mapFind c.query_map d).isSome)
  | QueryKind.tableQuery _ => []

/-- The `table_names` scan of `add_queries`: every name referenced in some
stored query's dependency list that is not a key of the query map, collected
into a set (modelled by `dedup`). -/
def scan_table_names (c : QueryCollection) : List String :=
  (c.query_map.foldr (fun p acc => unregistered_deps c p.2 ++ acc) []).dedup

/-- One insertion step of the final loop of `add_queries`: synthesize the
`TableQuery` leaf with the hash-derived id and store it in both maps. -/
def insertTable (hash : String → Nat) (acc : QueryCollection) (t : String) :
    QueryCollection :=
  { query_map := mapInsert acc.query_map t
      (QueryKind.tableQuery { id := hash t, name := t }),
    query_id_map := acc.query_id_map.insert_resource t (hash t) }

/-- The final loop of `add_queries`. -/
def store_tables (hash : String → Nat) (c : QueryCollection)
    (names : List String) : QueryCollection :=
  names.foldl (insertTable hash) c

/-- Models `QueryCollection::add_queries`: parse the batch (dropping entries
the front end rejects), store the parsed queries, then synthesize and store a
`TableQuery` for every dependency name not yet registered. -/
def add_queries (frontEnd : String → Option (List String))
    (hash : String → Nat) (c : QueryCollection) (queries : List RawQuery) :
    QueryCollection :=
  store_tables hash
    (store_parsed c (queries.filterMap
      (fun q => prepare_query frontEnd hash q.query_string q.name)))
    (scan_table_names (store_parsed c (queries.filterMap
      (fun q => prepare_query frontEnd hash q.query_string q.name))))

theorem keyIn_mapInsert {V : Type} {m : List (String × V)} {k k2 : String}
    {v : V} : keyIn (mapInsert m k v) k2 ↔ k2 = k ∨ keyIn m k2 := by
  unfold keyIn mapInsert
  constructor
  · rintro ⟨w, hw⟩
    rcases List.mem_cons.1 hw with heq | hf
    · exact Or.inl (congrArg Prod.fst heq)
    · exact Or.inr ⟨w, (List.mem_filter.1 hf).1⟩
  · rintro (rfl | ⟨w, hw⟩)
    · exact ⟨v, List.mem_cons_self _ _⟩
    · by_cases hk : k2 = k
      · subst hk
        exact ⟨v, List.mem_cons_self _ _⟩
      · refine ⟨w, List.mem_cons.2 (Or.inr (List.mem_filter.2 ⟨hw, ?_⟩))⟩
        simp [hk]

theorem mapFind_isSome_iff {V : Type} {m : List (String × V)} {k : String} :
    (mapFind m k).isSome = true ↔ keyIn m k := by
  unfold mapFind keyIn
  constructor
  · intro h
    cases hf : m.find? (fun p => p.1 == k) with
    | none =>
      rw [hf] at h
      simp at h
    | some p =>
      have hpk : p.1 = k := by simpa using List.find?_some hf
      have hmem := List.mem_of_find?_eq_some hf
      cases p with
      | mk a b =>
        simp only at hpk
        subst hpk
        exact ⟨b, hmem⟩
  · rintro ⟨v, hv⟩
    have hs : (m.find? (fun p => p.1 == k)).isSome = true :=
      List.find?_isSome.2 ⟨(k, v), hv, by simp⟩
    cases hf : m.find? (fun p => p.1 == k) with
    | none =>
      rw [hf] at hs
      simp at hs
    | some p => rfl

/-- The key sets of the query map and the name/id registry coincide. -/
def sameKeys (c : QueryCollection) : Prop :=
  ∀ k, keyIn c.query_map k ↔ keyIn c.query_id_map.inner k

theorem sameKeys_insertParsed {c : QueryCollection} {q : Query}
    (h : sameKeys c) : sameKeys (insertParsed c q) := by
  intro k
  simp only [insertParsed, ResourceIdMap.insert_resource, keyIn_mapInsert, h k]

theorem sameKeys_insertTable {hash : String → Nat} {c : QueryCollection}
    {t : String} (h : sameKeys c) : sameKeys (insertTable hash c t) := by
  intro k
  simp only [insertTable, ResourceIdMap.insert_resource, keyIn_mapInsert, h k]

theorem store_parsed_sameKeys {l : List Query} :
    ∀ {c : QueryCollection}, sameKeys c → sameKeys (store_parsed c l) := by
  induction l with
  | nil => intro c h; exact h
  | cons q t ih =>
    intro c h
    have hstep : store_parsed c (q :: t) = store_parsed (insertParsed c q) t :=
      rfl
    rw [hstep]
    exact ih (sameKeys_insertParsed h)

theorem store_tables_sameKeys {hash : String → Nat} {l : List String} :
    ∀ {c : QueryCollection}, sameKeys c → sameKeys (store_tables hash c l) := by
  induction l with
  | nil => intro c h; exact h
  | cons t rest ih =>
    intro c h
    have hstep : store_tables hash c (t :: rest)
        = store_tables hash (insertTable hash c t) rest := rfl
    rw [hstep]
    exact ih (sameKeys_insertTable h)

theorem store_parsed_keyIn {l : List Query} :
    ∀ {c : QueryCollection} {k : String},
      keyIn c.query_map k → keyIn (store_parsed c l).query_map k := by
  induction l with
  | nil => intro c k h; exact h
  | cons q t ih =>
    intro c k h
    have hstep : store_parsed c (q :: t) = store_parsed (insertParsed c q) t :=
      rfl
    rw [hstep]
    exact ih (keyIn_mapInsert.2 (Or.inr h))

theorem store_parsed_keyIn_inner {l : List Query} :
    ∀ {c : QueryCollection} {k : String},
      keyIn c.query_id_map.inner k →
        keyIn (store_parsed c l).query_id_map.inner k := by
  induction l with
  | nil => intro c k h; exact h
  | cons q t ih =>
    intro c k h
    have hstep : store_parsed c (q :: t) = store_parsed (insertParsed c q) t :=
      rfl
    rw [hstep]
    exact ih (keyIn_mapInsert.2 (Or.inr h))

theorem store_tables_keyIn {hash : String → Nat} {l : List String} :
    ∀ {c : QueryCollection} {k : String},
      keyIn c.query_map k → keyIn (store_tables hash c l).query_map k := by
  induction l with
  | nil => intro c k h; exact h
  | cons t rest ih =>
    intro c k h
    have hstep : store_tables hash c (t :: rest)
        = store_tables hash (insertTable hash c t) rest := rfl
    rw [hstep]
    exact ih (keyIn_mapInsert.2 (Or.inr h))

theorem store_tables_keyIn_inner {hash : String → Nat} {l : List String} :
    ∀ {c : QueryCollection} {k : String},
      keyIn c.query_id_map.inner k →
        keyIn (store_tables hash c l).query_id_map.inner k := by
  induction l with
  | nil => intro c k h; exact h
  | cons t rest ih =>
    intro c k h
    have hstep : store_tables hash c (t :: rest)
        = store_tables hash (insertTable hash c t) rest := rfl
    rw [hstep]
    exact ih (keyIn_mapInsert.2 (Or.inr h))

/-- C5: after any `add_queries` call on a collection whose two maps agree on
keys, they still agree, and no key present before the call is absent after
it — the registry grows monotonically. -/
theorem C5_registry_key_sets_agree_and_grow :
    ∀ (frontEnd : String → Option (List String)) (hash : String → Nat)
      (c : QueryCollection) (queries : List RawQuery),
      sameKeys c →
      sameKeys (add_queries frontEnd hash c queries)
      ∧ (∀ k, keyIn c.query_map k →
          keyIn (add_queries frontEnd hash c queries).query_map k)
      ∧ (∀ k, keyIn c.query_id_map.inner k →
          keyIn (add_queries frontEnd hash c queries).query_id_map.inner k) := by
  intro fe hash c qs hsk
  unfold add_queries
  refine ⟨store_tables_sameKeys (store_parsed_sameKeys hsk), ?_, ?_⟩
  · intro k hk
    exact store_tables_keyIn (store_parsed_keyIn hk)
  · intro k hk
    exact store_tables_keyIn_inner (store_parsed_keyIn_inner hk)

/-- A concrete front end for the examples: each known source text maps to its
dependency names, unknown texts fail to parse. -/
def feExample : String → Option (List String) := fun s =>
  if s = "src1" then some []
  else if s = "src2" then some ["q1", "tblA"]
  else if s = "src3" then some ["tblB"]
  else if s = "src4" then some ["q1", "rituals"]
  else none

/-- A concrete name hash for the examples. -/
def hashExample : String → Nat := fun s =>
  if s = "q1" then 101
  else if s = "q2" then 102
  else if s = "q3" then 103
  else if s = "tblA" then 201
  else if s = "tblB" then 202
  else if s = "rituals" then 210
  else 0

/-- Witness for C5 at concrete input: one batch on the empty collection. -/
theorem C5_registry_key_sets_witness :
    sameKeys (add_queries feExample hashExample QueryCollection.new
      [{ query_string := "src2", name := "q2" }])
    ∧ (∀ k, keyIn QueryCollection.new.query_map k →
        keyIn (add_queries feExample hashExample QueryCollection.new
          [{ query_string := "src2", name := "q2" }]).query_map k)
    ∧ (∀ k, keyIn QueryCollection.new.query_id_map.inner k →
        keyIn (add_queries feExample hashExample QueryCollection.new
          [{ query_string := "src2", name := "q2" }]).query_id_map.inner k) :=
  C5_registry_key_sets_agree_and_grow feExample hashExample
    QueryCollection.new [{ query_string := "src2", name := "q2" }]
    (fun k =>
      iff_of_false (by rintro ⟨v, hv⟩; simp [QueryCollection.new] at hv)
        (by rintro ⟨v, hv⟩
            simp [QueryCollection.new, ResourceIdMap.new] at hv))

theorem mem_foldr_append {α β : Type} (f : α → List β) (x : β) :
    ∀ (l : List α),
      (x ∈ l.foldr (fun p acc => f p ++ acc) []) ↔ ∃ p ∈ l, x ∈ f p := by
  intro l
  induction l with
  | nil => simp
  | cons a t ih =>
    rw [List.foldr_cons, List.mem_append, ih]
    constructor
    · rintro (h | ⟨p, hp, hx⟩)
      · exact ⟨a, List.mem_cons_self a t, h⟩
      · exact ⟨p, List.mem_cons.2 (Or.inr hp), hx⟩
    · rintro ⟨p, hp, hx⟩
      rcases List.mem_cons.1 hp with rfl | hp2
      · exact Or.inl hx
      · exact Or.inr ⟨p, hp2, hx⟩

theorem mem_unregistered_deps {c : QueryCollection} {k : QueryKind}
    {d : String} :
    d ∈ unregistered_deps c k ↔
      ∃ q, k = QueryKind.query q ∧ d ∈ q.dependencies
        ∧ (mapFind c.query_map d).isSome = false := by
  cases k with
  | query q =>
    simp only [unregistered_deps, List.mem_filter, QueryKind.query.injEq]
    constructor
    · rintro ⟨hd, hb⟩
      exact ⟨q, rfl, hd, by simpa using hb⟩
    · rintro ⟨q2, rfl, hd, hb⟩
      exact ⟨hd, by simpa using hb⟩
  | tableQuery t =>
    simp [unregistered_deps]

theorem mem_scan_table_names {c : QueryCollection} {d : String} :
    d ∈ scan_table_names c ↔
      (∃ nm q, (nm, QueryKind.query q) ∈ c.query_map ∧ d ∈ q.dependencies)
      ∧ ¬ keyIn c.query_map d := by
  unfold scan_table_names
  rw [List.mem_dedup, mem_foldr_append]
  constructor
  · rintro ⟨p, hp, hd⟩
    rw [mem_unregistered_deps] at hd
    obtain ⟨q, hq, hdep, hfind⟩ := hd
    refine ⟨⟨p.1, q, ?_, hdep⟩, ?_⟩
    · rw [← hq]
      exact hp
    · intro hk
      rw [← mapFind_isSome_iff, hfind] at hk
      exact Bool.false_ne_true hk
  · rintro ⟨⟨nm, q, hmem, hdep⟩, hnk⟩
    refine ⟨(nm, QueryKind.query q), hmem, ?_⟩
    rw [mem_unregistered_deps]
    refine ⟨q, rfl, hdep, ?_⟩
    cases hb : (mapFind c.query_map d).isSome
    · rfl
    · exact absurd (mapFind_isSome_iff.1 hb) hnk

theorem find_filter_ne {V : Type} {k k2 : String} (h : k2 ≠ k) :
    ∀ (m : List (String × V)),
      (m.filter (fun p => !(p.1 == k))).find? (fun p => p.1 == k2)
        = m.find? (fun p => p.1 == k2) := by
  intro m
  induction m with
  | nil => rfl
  | cons x t ih =>
    rw [List.filter_cons]
    by_cases hx2 : x.1 = k2
    · have hxk : (!(x.1 == k)) = true := by
        simp only [Bool.not_eq_true', beq_eq_false_iff_ne]
        rw [hx2]
        exact h
      rw [if_pos hxk, List.find?_cons_of_pos _ (by simp [hx2]),
        List.find?_cons_of_pos _ (by simp [hx2])]
    · by_cases hxk : (!(x.1 == k)) = true
      · rw [if_pos hxk, List.find?_cons_of_neg _ (by simp [hx2]),
          List.find?_cons_of_neg _ (by simp [hx2])]
        exact ih
      · rw [if_neg hxk, ih, List.find?_cons_of_neg _ (by simp [hx2])]

theorem mapFind_mapInsert_self {V : Type} {m : List (String × V)}
    {k : String} {v : V} : mapFind (mapInsert m k v) k = some v := by
  unfold mapFind mapInsert
  rw [List.find?_cons_of_pos _ (by simp)]
  rfl

theorem mapFind_mapInsert_ne {V : Type} {m : List (String × V)}
    {k k2 : String} {v : V} (h : k2 ≠ k) :
    mapFind (mapInsert m k v) k2 = mapFind m k2 := by
  unfold mapFind mapInsert
  rw [List.find?_cons_of_neg _ (by simpa using fun hh => h hh.symm),
    find_filter_ne h]

theorem query_mem_store_tables {hash : String → Nat} :
    ∀ {names : List String} {c : QueryCollection} {nm : String} {q : Query},
      (nm, QueryKind.query q) ∈ (store_tables hash c names).query_map →
      (nm, QueryKind.query q) ∈ c.query_map := by
  intro names
  induction names with
  | nil => intro c nm q h; exact h
  | cons t rest ih =>
    intro c nm q h
    have hstep : store_tables hash c (t :: rest)
        = store_tables hash (insertTable hash c t) rest := rfl
    rw [hstep] at h
    have h2 := ih h
    simp only [insertTable, mapInsert] at h2
    rcases List.mem_cons.1 h2 with heq | hf
    · exfalso
      have hsnd := congrArg Prod.snd heq
      simp at hsnd
    · exact (List.mem_filter.1 hf).1

theorem store_tables_find_not_mem {hash : String → Nat} :
    ∀ {names : List String} {c : QueryCollection} {t : String}, t ∉ names →
      mapFind (store_tables hash c names).query_map t
        = mapFind c.query_map t := by
  intro names
  induction names with
  | nil => intro c t _; rfl
  | cons n rest ih =>
    intro c t ht
    have hne : t ≠ n := fun hh => ht (hh ▸ List.mem_cons_self n rest)
    have hstep : store_tables hash c (n :: rest)
        = store_tables hash (insertTable hash c n) rest := rfl
    rw [hstep, ih (fun hh => ht (List.mem_cons.2 (Or.inr hh)))]
    simp only [insertTable]
    exact mapFind_mapInsert_ne hne

theorem store_tables_find_mem {hash : String → Nat} :
    ∀ {names : List String}, names.Nodup →
      ∀ {c : QueryCollection} {t : String}, t ∈ names →
        mapFind (store_tables hash c names).query_map t
          = some (QueryKind.tableQuery { id := hash t, name := t }) := by
  intro names
  induction names with
  | nil => intro _ c t ht; simp at ht
  | cons n rest ih =>
    intro hnd c t ht
    have hstep : store_tables hash c (n :: rest)
        = store_tables hash (insertTable hash c n) rest := rfl
    rw [hstep]
    rcases List.mem_cons.1 ht with rfl | hrest
    · have hnin : t ∉ rest := (List.nodup_cons.1 hnd).1
      rw [store_tables_find_not_mem hnin]
      simp only [insertTable]
      exact mapFind_mapInsert_self
    · exact ih (List.nodup_cons.1 hnd).2 hrest

theorem add_queries_table_entry {hash : String → Nat} {c1 : QueryCollection}
    {nm d : String} {q : Query}
    (hmem : (nm, QueryKind.query q) ∈
      (store_tables hash c1 (scan_table_names c1)).query_map)
    (hdep : d ∈ q.dependencies) :
    keyIn (store_tables hash c1 (scan_table_names c1)).query_map d
    ∧ (¬ keyIn c1.query_map d →
        mapFind (store_tables hash c1 (scan_table_names c1)).query_map d
          = some (QueryKind.tableQuery { id := hash d, name := d })) := by
  have hq1 : (nm, QueryKind.query q) ∈ c1.query_map :=
    query_mem_store_tables hmem
  by_cases hk : keyIn c1.query_map d
  · exact ⟨store_tables_keyIn hk, fun hnk => absurd hk hnk⟩
  · have hscan : d ∈ scan_table_names c1 := by
      rw [mem_scan_table_names]
      exact ⟨⟨nm, q, hq1, hdep⟩, hk⟩
    have hndup : (scan_table_names c1).Nodup := by
      unfold scan_table_names
      exact List.nodup_dedup _
    have hfind := @store_tables_find_mem hash _ hndup c1 d hscan
    refine ⟨?_, fun _ => hfind⟩
    rw [← mapFind_isSome_iff, hfind]
    rfl

/-- C7: after `add_queries` completes, every dependency name of a stored
query is registered; a name that was not a key once the batch's queries were
stored is registered as a `TableQuery` whose id is the hash of its name.  In
the concrete two-batch scenario the registry ends with 3 explicit queries
plus 2 newly discovered implicit tables = 5 entries, with the first batch's
entry still present and unchanged. -/
theorem C7_implicit_tables_registered :
    (∀ (frontEnd : String → Option (List String)) (hash : String → Nat)
        (c : QueryCollection) (queries : List RawQuery) (nm d : String)
        (q : Query),
        (nm, QueryKind.query q) ∈
          (add_queries frontEnd hash c queries).query_map →
        d ∈ q.dependencies →
        keyIn (add_queries frontEnd hash c queries).query_map d
        ∧ (¬ keyIn (store_parsed c (queries.filterMap (fun r =>
              prepare_query frontEnd hash r.query_string r.name))).query_map
              d →
            mapFind (add_queries frontEnd hash c queries).query_map d
              = some (QueryKind.tableQuery { id := hash d, name := d })))
    ∧ ((add_queries feExample hashExample
          (add_queries feExample hashExample QueryCollection.new
            [{ query_string := "src1", name := "q1" }])
          [{ query_string := "src2", name := "q2" },
           { query_string := "src3", name := "q3" }]).query_map.length = 5
       ∧ mapFind (add_queries feExample hashExample
            (add_queries feExample hashExample QueryCollection.new
              [{ query_string := "src1", name := "q1" }])
            [{ query_string := "src2", name := "q2" },
             { query_string := "src3", name := "q3" }]).query_map "q1"
          = mapFind (add_queries feExample hashExample QueryCollection.new
              [{ query_string := "src1", name := "q1" }]).query_map "q1"
       ∧ mapFind (add_queries feExample hashExample
            (add_queries feExample hashExample QueryCollection.new
              [{ query_string := "src1", name := "q1" }])
            [{ query_string := "src2", name := "q2" },
             { query_string := "src3", name := "q3" }]).query_map "tblA"
          = some (QueryKind.tableQuery
              { id := hashExample "tblA", name := "tblA" })) := by
  refine ⟨?_, by decide, by decide, by decide⟩
  intro fe hash c qs nm d q hmem hdep
  exact add_queries_table_entry hmem hdep

/-- Witness for C7 at concrete input: `q2`'s dependency `tblA` in the second
batch. -/
theorem C7_implicit_tables_registered_witness :
    keyIn (add_queries feExample hashExample QueryCollection.new
      [{ query_string := "src2", name := "q2" }]).query_map "tblA"
    ∧ (¬ keyIn (store_parsed QueryCollection.new
          (([{ query_string := "src2", name := "q2" }] :
            List RawQuery).filterMap (fun r =>
            prepare_query feExample hashExample r.query_string
              r.name))).query_map "tblA" →
        mapFind (add_queries feExample hashExample QueryCollection.new
          [{ query_string := "src2", name := "q2" }]).query_map "tblA"
          = some (QueryKind.tableQuery
              { id := hashExample "tblA", name := "tblA" })) :=
  C7_implicit_tables_registered.1 feExample hashExample QueryCollection.new
    [{ query_string := "src2", name := "q2" }] "q2" "tblA"
    { id := hashExample "q2", name := "q2", dependencies := ["q1", "tblA"] }
    (by decide) (by decide)

/-- C9: an entry whose query text the front end rejects is dropped from the
batch with no error surfaced — the result is exactly the result of
registering the batch without that entry, so all other entries are stored
normally. -/
theorem C9_failing_entry_silently_dropped :
    ∀ (frontEnd : String → Option (List String)) (hash : String → Nat)
      (c : QueryCollection) (pre post : List RawQuery) (q : RawQuery),
      frontEnd q.query_string = none →
      add_queries frontEnd hash c (pre ++ q :: post)
        = add_queries frontEnd hash c (pre ++ post) := by
  intro fe hash c pre post q hq
  have hnone : prepare_query fe hash q.query_string q.name = none := by
    unfold prepare_query
    rw [hq]
    rfl
  have hfm : List.filterMap
      (fun r => prepare_query fe hash r.query_string r.name) (q :: post)
      = List.filterMap
          (fun r => prepare_query fe hash r.query_string r.name) post :=
    List.filterMap_cons_none hnone
  unfold add_queries
  rw [List.filterMap_append, List.filterMap_append, hfm]

/-- Witness for C9 at concrete input: the unparsable entry `bad` is dropped,
the rest of the batch is unaffected. -/
theorem C9_failing_entry_silently_dropped_witness :
    add_queries feExample hashExample QueryCollection.new
      ([{ query_string := "src1", name := "q1" }] ++
        { query_string := "bad", name := "qX" } ::
          [{ query_string := "src3", name := "q3" }])
      = add_queries feExample hashExample QueryCollection.new
          ([{ query_string := "src1", name := "q1" }] ++
            [{ query_string := "src3", name := "q3" }]) :=
  C9_failing_entry_silently_dropped feExample hashExample QueryCollection.new
    [{ query_string := "src1", name := "q1" }]
    [{ query_string := "src3", name := "q3" }]
    { query_string := "bad", name := "qX" } (by decide)

/-! ## Edge generation (`src/query_graph/mod.rs`) -/

/-- Modelled from the spec: `QueryCollection::get_query_depedencies` is called
by `generate_graph_from_collection` but its definition is not under `src/`.
Per the spec (§2: the registry "emits (dependency, dependent) edge pairs for
every query", with ids resolved through the name→id registry), it returns the
ids of the tables/queries the named query depends on. -/
def get_query_depedencies (c : QueryCollection) (nm : String) : List Nat :=
  match mapFind c.query_map nm with
  | some (QueryKind.query q) =>
      q.dependencies.filterMap (fun d => mapFind c.query_id_map.inner d)
  | _ => []

/-- Models `gen_edge_pairs`: one `(dependency, dependent)` pair per dependency
id of the node. -/
def gen_edge_pairs (src_node : Nat) (node_deps : List Nat) :
    List (Nat × Nat) :=
  node_deps.map (fun n => (n, src_node))

/-- The edge pairs one registered entry contributes: from its dependencies'
ids to its own id. -/
def entry_edges (c : QueryCollection) (p : String × QueryKind) :
    List (Nat × Nat) :=
  gen_edge_pairs p.2.id (get_query_depedencies c p.2.name)

/-- Models the edge-collection loop of `generate_graph_from_collection`: for
every registered entry, emit the edge pairs from its dependencies' ids to its
own id. -/
def collection_edges (c : QueryCollection) : List (Nat × Nat) :=
  c.query_map.foldr (fun p acc => entry_edges c p ++ acc) []

/-- Models `generate_graph_from_collection`: validate the collected edges and
build the graph. -/
def generate_graph_from_collection (c : QueryCollection) : Option QueryGraph :=
  (ValidGraphData.new_from_edges (collection_edges c)).bind
    QueryGraph.new_from_valid_data

theorem mem_gen_edge_pairs {src_node x y : Nat} {node_deps : List Nat} :
    (x, y) ∈ gen_edge_pairs src_node node_deps ↔
      y = src_node ∧ x ∈ node_deps := by
  unfold gen_edge_pairs
  rw [List.mem_map]
  constructor
  · rintro ⟨n, hn, heq⟩
    rw [Prod.mk.injEq] at heq
    exact ⟨heq.2.symm, heq.1 ▸ hn⟩
  · rintro ⟨rfl, hx⟩
    exact ⟨x, hx, rfl⟩

/-- The example collection for C6: `q2` depends on `q1` (an explicit query)
and `rituals` (an implicit table). -/
def cExample : QueryCollection :=
  add_queries feExample hashExample QueryCollection.new
    [{ query_string := "src1", name := "q1" },
     { query_string := "src4", name := "q2" }]

/-- C6: the generated edge list contains `(x, y)` exactly when some
registered entry with id `y` has a dependency with id `x` — the dependency is
the edge source, the dependent the destination.  Concretely, `q2` depending
on `{q1, rituals}` produces exactly the edges `(q1 → q2)` and
`(rituals → q2)`. -/
theorem C6_dependency_edge_generation :
    (∀ (c : QueryCollection) (x y : Nat),
        (x, y) ∈ collection_edges c ↔
          ∃ p ∈ c.query_map, p.2.id = y
            ∧ x ∈ get_query_depedencies c p.2.name)
    ∧ ((hashExample "q1", hashExample "q2") ∈ collection_edges cExample
       ∧ (hashExample "rituals", hashExample "q2") ∈ collection_edges cExample
       ∧ ∀ e ∈ collection_edges cExample, e.2 = hashExample "q2" →
           e = (hashExample "q1", hashExample "q2")
           ∨ e = (hashExample "rituals", hashExample "q2")) := by
  refine ⟨?_, by decide, by decide, by decide⟩
  intro c x y
  unfold collection_edges
  rw [mem_foldr_append (entry_edges c)]
  unfold entry_edges
  constructor
  · rintro ⟨p, hp, hx⟩
    rw [mem_gen_edge_pairs] at hx
    exact ⟨p, hp, hx.1.symm, hx.2⟩
  · rintro ⟨p, hp, hy, hx⟩
    refine ⟨p, hp, ?_⟩
    rw [mem_gen_edge_pairs]
    exact ⟨hy.symm, hx⟩

end Orbital
